import Mathlib

/-!
# Verification of the chatbot RAG backend

Shallow embedding of the repository's core modules and proofs of the
specification claims about them:

* session memory (`src/lib/memory.js`): bounded FIFO-evicting history;
* rate limiter (`rateLimit.js`): sliding-window per-key request limit;
* chunker / embedding store (`embeddings.js`): overlapping text windows,
  batched embedding generation, cached initialization;
* retriever (`src/lib/retriever.js`): cosine-similarity top-K retrieval.

JavaScript `Map`s keyed by strings are modelled as total functions
`String → _` whose default value is the one the code inserts for an absent
key, so that the insert-if-absent steps become identities.  Machine numbers
are modelled as `Int`/`Nat`/`ℚ` as appropriate; the retriever's
floating-point similarity scores are abstracted by an arbitrary score
function (see `retrieveSimilarities`).
-/

namespace Chatbot

/-! ## Session memory (`src/lib/memory.js`) -/

/-- A chat turn `{ role, content }` as pushed by `addMessage`. -/
structure Message where
  role : String
  content : String
deriving DecidableEq, Repr

/-- `MAX_MESSAGES_PER_SESSION` from `src/lib/memory.js`. -/
def MAX_MESSAGES_PER_SESSION : Nat := 20

/-- The `sessions` map.  An absent key behaves as `[]`, which matches
`getSessionHistory` inserting `[]` for an unseen session id before
returning it. -/
def Sessions : Type := String → List Message

/-- The initial (empty) `sessions` map. -/
def initialSessions : Sessions := fun _ => []

/-- `getSessionHistory(sessionId)`: return the stored history
(`[]` for an unseen id, which the code stores on first access). -/
def getSessionHistory (st : Sessions) (sessionId : String) : List Message :=
  st sessionId

/-- `addMessage(sessionId, role, content)`: push `{role, content}` onto the
session's history, then, if the length exceeds `MAX_MESSAGES_PER_SESSION`,
`shift()` once (drop the front element). -/
def addMessage (st : Sessions) (sessionId role content : String) : Sessions :=
  let history := getSessionHistory st sessionId
  let pushed := history ++ [⟨role, content⟩]
  let newHistory :=
    if MAX_MESSAGES_PER_SESSION < pushed.length then pushed.tail else pushed
  fun k => if k = sessionId then newHistory else st k

/-- Run a finite sequence of `addMessage` calls
(each call is `(sessionId, role, content)`) from the empty session store. -/
def runAddMessages (calls : List (String × String × String)) : Sessions :=
  calls.foldl (fun st c => addMessage st c.1 c.2.1 c.2.2) initialSessions

/-- The turns appended to session `sid` by a sequence of calls, in order. -/
def appendedTurns (calls : List (String × String × String)) (sid : String) :
    List Message :=
  (calls.filter (fun c => c.1 = sid)).map (fun c => ⟨c.2.1, c.2.2⟩)

/-- The suffix of the last `n` elements of a list. -/
def lastN (n : Nat) (l : List α) : List α := l.drop (l.length - n)

theorem lastN_length (n : Nat) (l : List α) : (lastN n l).length = min n l.length := by
  rw [lastN, List.length_drop]; omega

theorem lastN_of_le (n : Nat) (l : List α) (h : l.length ≤ n) : lastN n l = l := by
  rw [lastN, Nat.sub_eq_zero_of_le h, List.drop_zero]

/-- One `addMessage` step on a history of shape `lastN MAX xs` produces
`lastN MAX (xs ++ [m])`: the FIFO window slides by one. -/
theorem addMessage_lastN (xs : List Message) (m : Message) :
    (if MAX_MESSAGES_PER_SESSION < (lastN MAX_MESSAGES_PER_SESSION xs ++ [m]).length then
        (lastN MAX_MESSAGES_PER_SESSION xs ++ [m]).tail
      else lastN MAX_MESSAGES_PER_SESSION xs ++ [m]) =
    lastN MAX_MESSAGES_PER_SESSION (xs ++ [m]) := by
  by_cases h : xs.length < MAX_MESSAGES_PER_SESSION
  · rw [lastN_of_le _ _ (Nat.le_of_lt h)]
    rw [if_neg (by simp; omega)]
    rw [lastN_of_le _ _ (by simp; omega)]
  · push_neg at h
    have hlen : (lastN MAX_MESSAGES_PER_SESSION xs).length = MAX_MESSAGES_PER_SESSION := by
      rw [lastN_length]; omega
    rw [if_pos (by simp [hlen])]
    have hdrop : lastN MAX_MESSAGES_PER_SESSION xs ++ [m] =
        (xs ++ [m]).drop (xs.length - MAX_MESSAGES_PER_SESSION) := by
      rw [List.drop_append_of_le_length (by omega)]
      rfl
    rw [hdrop, ← List.drop_one, List.drop_drop, lastN]
    congr 1
    simp
    omega

theorem runAddMessages_append_singleton (cs : List (String × String × String))
    (c : String × String × String) :
    runAddMessages (cs ++ [c]) = addMessage (runAddMessages cs) c.1 c.2.1 c.2.2 := by
  simp [runAddMessages]

theorem appendedTurns_append_singleton (cs : List (String × String × String))
    (c : String × String × String) (sid : String) :
    appendedTurns (cs ++ [c]) sid =
      appendedTurns cs sid ++ (if c.1 = sid then [⟨c.2.1, c.2.2⟩] else []) := by
  by_cases h : c.1 = sid <;>
    simp [appendedTurns, List.filter_append, h]

theorem getSessionHistory_eq_lastN (calls : List (String × String × String)) (sid : String) :
    getSessionHistory (runAddMessages calls) sid =
      lastN MAX_MESSAGES_PER_SESSION (appendedTurns calls sid) := by
  induction calls using List.reverseRecOn with
  | nil => rfl
  | append_singleton cs c ih =>
    rw [runAddMessages_append_singleton, appendedTurns_append_singleton]
    by_cases h : c.1 = sid
    · have hsid : sid = c.1 := h.symm
      simp only [getSessionHistory, addMessage, if_pos hsid] at *
      rw [hsid] at ih ⊢
      rw [ih, h, if_pos rfl]
      exact addMessage_lastN _ _
    · have hsid : ¬ sid = c.1 := fun hh => h hh.symm
      simp only [getSessionHistory, addMessage, if_neg hsid] at *
      rw [if_neg h, List.append_nil]
      exact ih

/-- C1: for every session identifier and every finite sequence of `addMessage`
calls (on any sessions), the history `getSessionHistory` returns for that
session is exactly the most recently appended ≤ 20 turns of that session, in
append order (eviction strictly FIFO from the front), and its length never
exceeds `MAX_MESSAGES_PER_SESSION = 20`. -/
theorem session_eviction_invariant (calls : List (String × String × String)) (sid : String) :
    getSessionHistory (runAddMessages calls) sid =
      lastN MAX_MESSAGES_PER_SESSION (appendedTurns calls sid) ∧
    (getSessionHistory (runAddMessages calls) sid).length ≤ MAX_MESSAGES_PER_SESSION := by
  refine ⟨getSessionHistory_eq_lastN calls sid, ?_⟩
  rw [getSessionHistory_eq_lastN calls sid, lastN_length]
  omega

/-! ## Rate limiter (`rateLimit.js`, required by `src/api/chat.js`) -/

/-- `RATE_LIMIT_WINDOW = 60 * 1000` milliseconds. -/
def RATE_LIMIT_WINDOW : Int := 60 * 1000

/-- `MAX_REQUESTS_PER_WINDOW = 60`. -/
def MAX_REQUESTS_PER_WINDOW : Nat := 60

/-- The `requestCounts` map from keys (client IPs) to recorded request
timestamps (milliseconds, as returned by `Date.now()`).  An absent key
behaves as `[]`, which matches the `has`/`set`-empty-array steps at the top
of `isRateLimited`. -/
def RequestCounts : Type := String → List Int

/-- The initial (empty) `requestCounts` map. -/
def initialRequestCounts : RequestCounts := fun _ => []

/-- `isRateLimited(ip)` at current time `now`.  The code filters the stored
timestamps to those with `now - timestamp < RATE_LIMIT_WINDOW` (a fresh
array); if at least `MAX_REQUESTS_PER_WINDOW` remain it returns `true`
before reaching the final `requestCounts.set`, so the stored list is left
unchanged; otherwise it pushes `now` onto the filtered array, stores that,
and returns `false`. -/
def isRateLimited (now : Int) (ip : String) (st : RequestCounts) :
    Bool × RequestCounts :=
  let requests := st ip
  let validRequests := requests.filter (fun timestamp => now - timestamp < RATE_LIMIT_WINDOW)
  if MAX_REQUESTS_PER_WINDOW ≤ validRequests.length then
    (true, st)
  else
    (false, fun k => if k = ip then validRequests ++ [now] else st k)

/-- Run a finite sequence of `isRateLimited` calls (each `(now, ip)`),
keeping only the resulting state. -/
def runRateLimiter (calls : List (Int × String)) : RequestCounts :=
  calls.foldl (fun st c => (isRateLimited c.1 c.2 st).2) initialRequestCounts

/-- C3: `isRateLimited` returns `true` and records no new timestamp when the
key already has at least 60 recorded timestamps strictly within the trailing
60-second window; otherwise it appends the current timestamp for that key to
the filtered list and returns `false`. -/
theorem isRateLimited_contract (now : Int) (ip : String) (st : RequestCounts) :
    (MAX_REQUESTS_PER_WINDOW ≤
        ((st ip).filter (fun t => now - t < RATE_LIMIT_WINDOW)).length →
      isRateLimited now ip st = (true, st)) ∧
    (((st ip).filter (fun t => now - t < RATE_LIMIT_WINDOW)).length <
        MAX_REQUESTS_PER_WINDOW →
      (isRateLimited now ip st).1 = false ∧
      (isRateLimited now ip st).2 ip =
        (st ip).filter (fun t => now - t < RATE_LIMIT_WINDOW) ++ [now]) := by
  constructor
  · intro h
    simp only [isRateLimited]
    rw [if_pos h]
  · intro h
    simp only [isRateLimited]
    rw [if_neg (Nat.not_le.mpr h)]
    exact ⟨rfl, if_pos rfl⟩

/-- A state holding, for one key, exactly 60 timestamps all at millisecond
1000. -/
def rlStateSixty : RequestCounts :=
  fun k => if k = "1.2.3.4" then List.replicate 60 (1000 : Int) else []

/-- Witness for C3, instantiating both branches of the contract: at
`now = 60000` all 60 recorded timestamps are within the last 59 seconds and
the check rejects without touching the state; at `now = 61001` the earliest
(= every) timestamp has aged past 60 seconds, so the check accepts and
appends `61001` to the filtered (empty) list. -/
theorem isRateLimited_contract_witness :
    (MAX_REQUESTS_PER_WINDOW ≤
        ((rlStateSixty "1.2.3.4").filter
          (fun t => (60000 : Int) - t < RATE_LIMIT_WINDOW)).length ∧
      isRateLimited 60000 "1.2.3.4" rlStateSixty = (true, rlStateSixty)) ∧
    (((rlStateSixty "1.2.3.4").filter
          (fun t => (61001 : Int) - t < RATE_LIMIT_WINDOW)).length <
        MAX_REQUESTS_PER_WINDOW ∧
      (isRateLimited 61001 "1.2.3.4" rlStateSixty).1 = false ∧
      (isRateLimited 61001 "1.2.3.4" rlStateSixty).2 "1.2.3.4" =
        (rlStateSixty "1.2.3.4").filter
          (fun t => (61001 : Int) - t < RATE_LIMIT_WINDOW) ++ [(61001 : Int)]) :=
  ⟨⟨by decide, (isRateLimited_contract 60000 "1.2.3.4" rlStateSixty).1 (by decide)⟩,
   ⟨by decide, (isRateLimited_contract 61001 "1.2.3.4" rlStateSixty).2 (by decide)⟩⟩

/-- A state holding, for one key, one expired timestamp (millisecond 0)
followed by 60 in-window timestamps (millisecond 50000), as seen at
`now = 70000`. -/
def rlStateStale : RequestCounts :=
  fun k => if k = "1.2.3.4" then (0 : Int) :: List.replicate 60 (50000 : Int) else []

/-- C5 counterexample: at `now = 70000` the key has 60 in-window timestamps,
so the check rejects — but the stored list is NOT replaced by the filtered
list: the expired timestamp `0` is still stored, because the code returns
`true` before reaching `requestCounts.set`. -/
theorem isRateLimited_reject_no_prune :
    (isRateLimited 70000 "1.2.3.4" rlStateStale).1 = true ∧
    (isRateLimited 70000 "1.2.3.4" rlStateStale).2 "1.2.3.4" ≠
      (rlStateStale "1.2.3.4").filter
        (fun t => (70000 : Int) - t < RATE_LIMIT_WINDOW) := by
  constructor
  · decide
  · intro h
    have h0 : (0 : Int) ∈ (isRateLimited 70000 "1.2.3.4" rlStateStale).2 "1.2.3.4" := by
      decide
    rw [h] at h0
    revert h0
    decide

/-- C5 (amended): when `isRateLimited` rejects (the count of in-window
timestamps is at or above the threshold), the whole stored state — in
particular the key's timestamp list — is left unchanged: the filtered list
is discarded rather than persisted, and the current request's timestamp is
not added. -/
theorem isRateLimited_reject_frame (now : Int) (ip : String) (st : RequestCounts)
    (h : MAX_REQUESTS_PER_WINDOW ≤
      ((st ip).filter (fun t => now - t < RATE_LIMIT_WINDOW)).length) :
    (isRateLimited now ip st).2 = st ∧ (isRateLimited now ip st).2 ip = st ip := by
  simp only [isRateLimited]
  rw [if_pos h]
  exact ⟨rfl, rfl⟩

/-- Witness for the amended C5, at the `rlStateStale` state and `now = 70000`. -/
theorem isRateLimited_reject_frame_witness :
    (MAX_REQUESTS_PER_WINDOW ≤
        ((rlStateStale "1.2.3.4").filter
          (fun t => (70000 : Int) - t < RATE_LIMIT_WINDOW)).length) ∧
    (isRateLimited 70000 "1.2.3.4" rlStateStale).2 = rlStateStale ∧
    (isRateLimited 70000 "1.2.3.4" rlStateStale).2 "1.2.3.4" =
      rlStateStale "1.2.3.4" :=
  ⟨by decide, isRateLimited_reject_frame 70000 "1.2.3.4" rlStateStale (by decide)⟩

/-- Each `isRateLimited` step keeps every key's stored list at or below
`MAX_REQUESTS_PER_WINDOW` entries. -/
theorem isRateLimited_step_bound (now : Int) (ip : String) (st : RequestCounts)
    (hst : ∀ k, (st k).length ≤ MAX_REQUESTS_PER_WINDOW) (k : String) :
    (((isRateLimited now ip st).2) k).length ≤ MAX_REQUESTS_PER_WINDOW := by
  simp only [isRateLimited]
  by_cases h : MAX_REQUESTS_PER_WINDOW ≤
      ((st ip).filter (fun timestamp => now - timestamp < RATE_LIMIT_WINDOW)).length
  · rw [if_pos h]
    exact hst k
  · rw [if_neg h]
    by_cases hk : k = ip
    · simp only [if_pos hk, List.length_append, List.length_cons, List.length_nil]
      omega
    · simp only [if_neg hk]
      exact hst k

/-- C10: after any finite sequence of `isRateLimited` calls (arbitrary clock
values), every key's stored timestamp list has at most 60 entries: an
accepting call appends one timestamp to a filtered list of length strictly
below 60, and a rejecting call leaves the state unchanged. -/
theorem rateLimiter_capacity_invariant (calls : List (Int × String)) (key : String) :
    ((runRateLimiter calls) key).length ≤ MAX_REQUESTS_PER_WINDOW := by
  suffices h : ∀ st : RequestCounts, (∀ k, (st k).length ≤ MAX_REQUESTS_PER_WINDOW) →
      ∀ k, ((calls.foldl (fun st c => (isRateLimited c.1 c.2 st).2) st) k).length ≤
        MAX_REQUESTS_PER_WINDOW by
    exact h initialRequestCounts (fun _ => by simp [initialRequestCounts]) key
  induction calls with
  | nil => intro st hst k; exact hst k
  | cons c cs ih =>
    intro st hst k
    exact ih ((isRateLimited c.1 c.2 st).2) (isRateLimited_step_bound c.1 c.2 st hst) k

/-! ## Chunker (`chunkText` in `embeddings.js`) -/

/-- The `while (start < text.length)` loop of `chunkText`: push
`text.slice(start, min(start + chunkSize, text.length))` (which
`List.take chunkSize ∘ List.drop start` computes, since `take` clamps at the
end of the list) and advance `start` by `chunkSize - overlap`.  The loop
guard carries `overlap < chunkSize` because the JS loop does not terminate
otherwise; the code calls it only with `chunkSize = 800, overlap = 200`. -/
def chunkTextGo (text : List Char) (chunkSize overlap : Nat) (start : Nat) :
    List (List Char) :=
  if _h : overlap < chunkSize ∧ start < text.length then
    ((text.drop start).take chunkSize) ::
      chunkTextGo text chunkSize overlap (start + (chunkSize - overlap))
  else
    []
termination_by text.length - start
decreasing_by omega

/-- `chunkText(text, chunkSize = 800, overlap = 200)`. -/
def chunkText (text : List Char) (chunkSize overlap : Nat) : List (List Char) :=
  chunkTextGo text chunkSize overlap 0

/-- The start offset of window `i`: `i * (chunkSize - overlap)`. -/
def windowStart (chunkSize overlap i : Nat) : Nat := i * (chunkSize - overlap)

/-- The exclusive end offset of window `i`, clamped to the text length. -/
def windowEnd (L chunkSize overlap i : Nat) : Nat :=
  min (windowStart chunkSize overlap i + chunkSize) L

/-- The number of character positions shared by consecutive windows `i` and
`i + 1` (what the spec calls the windows' overlap). -/
def consecOverlap (L chunkSize overlap i : Nat) : Nat :=
  windowEnd L chunkSize overlap i - windowStart chunkSize overlap (i + 1)

theorem chunkTextGo_getElem? (text : List Char) (chunkSize overlap : Nat)
    (hov : overlap < chunkSize) (start i : Nat) :
    (chunkTextGo text chunkSize overlap start)[i]? =
      if start + i * (chunkSize - overlap) < text.length then
        some ((text.drop (start + i * (chunkSize - overlap))).take chunkSize)
      else none := by
  rw [chunkTextGo]
  by_cases hs : start < text.length
  · rw [dif_pos ⟨hov, hs⟩]
    cases i with
    | zero =>
      simp [hs]
    | succ n =>
      rw [List.getElem?_cons_succ]
      rw [chunkTextGo_getElem? text chunkSize overlap hov (start + (chunkSize - overlap)) n]
      have harith : start + (chunkSize - overlap) + n * (chunkSize - overlap) =
          start + (n + 1) * (chunkSize - overlap) := by ring
      rw [harith]
  · rw [dif_neg (fun hh => hs hh.2)]
    rw [if_neg (by omega)]
    simp
termination_by text.length - start
decreasing_by omega

/-- A concrete 10-character text. -/
def cexText : List Char := ['a', 'b', 'c', 'd', 'e', 'f', 'g', 'h', 'i', 'j']

/-- C2 counterexample: with text length 10, `chunkSize = 8`, `overlap = 6`
(so `0 < overlap < chunkSize`), `chunkText` produces 5 windows at starts
0, 2, 4, 6, 8.  The consecutive pair (2, 3) — which does not involve the
last window (index 4) — shares only 4 character positions
(`windowEnd 2 = min (4+8) 10 = 10`, `windowStart 3 = 6`), not
`overlap = 6`; window 3 is `"ghij"`, only 4 characters long.  So the claim
that all consecutive pairs except possibly the last overlap by exactly
`overlap` is false. -/
theorem chunkText_overlap_counterexample :
    (0 < 6 ∧ 6 < 8) ∧
    (chunkText cexText 8 6).length = 5 ∧
    (chunkText cexText 8 6)[2]? = some ['e', 'f', 'g', 'h', 'i', 'j'] ∧
    (chunkText cexText 8 6)[3]? = some ['g', 'h', 'i', 'j'] ∧
    consecOverlap cexText.length 8 6 2 = 4 ∧
    ¬ (∀ i, i < (chunkText cexText 8 6).length - 2 →
        consecOverlap cexText.length 8 6 i = 6) := by
  refine ⟨by decide, ?_, ?_, ?_, by decide, ?_⟩
  · simp [chunkText, chunkTextGo, cexText]
  · simp [chunkText, chunkTextGo, cexText]
  · simp [chunkText, chunkTextGo, cexText]
  · intro hall
    have h5 : (chunkText cexText 8 6).length = 5 := by
      simp [chunkText, chunkTextGo, cexText]
    have h2 := hall 2 (by omega)
    revert h2
    decide

/-- C2 (amended): for `0 < overlap < chunkSize`, `chunkText` returns exactly
the consecutive windows `text[start : start+chunkSize]` for
`start = 0, step, 2*step, …` with `step = chunkSize - overlap`, stopping
once `start ≥ length text` (window `i` exists iff `i*step < length`, and the
last may be shorter); the windows cover `[0, L)` with no gaps; every window
has length at most `chunkSize`; a window that is not truncated by the end of
the text shares exactly `overlap` character positions with its successor
(truncated trailing windows may share fewer); and the shared region is
literally the same text (the last `overlap` characters of a full window are
the first `overlap` of the next). -/
theorem chunkText_window_spec (text : List Char) (chunkSize overlap : Nat)
    (hov0 : 0 < overlap) (hov : overlap < chunkSize) :
    (∀ i, (chunkText text chunkSize overlap)[i]? =
        if windowStart chunkSize overlap i < text.length then
          some ((text.drop (windowStart chunkSize overlap i)).take chunkSize)
        else none) ∧
    (∀ p, p < text.length →
        windowStart chunkSize overlap (p / (chunkSize - overlap)) ≤ p ∧
        p < windowEnd text.length chunkSize overlap (p / (chunkSize - overlap)) ∧
        windowStart chunkSize overlap (p / (chunkSize - overlap)) < text.length) ∧
    (∀ w ∈ chunkText text chunkSize overlap, w.length ≤ chunkSize) ∧
    (∀ i, windowStart chunkSize overlap i + chunkSize ≤ text.length →
        consecOverlap text.length chunkSize overlap i = overlap) ∧
    (∀ i, ((text.drop (windowStart chunkSize overlap i)).take chunkSize).drop
            (chunkSize - overlap) =
          ((text.drop (windowStart chunkSize overlap (i + 1))).take chunkSize).take
            overlap) := by
  have hget : ∀ i, (chunkText text chunkSize overlap)[i]? =
      if windowStart chunkSize overlap i < text.length then
        some ((text.drop (windowStart chunkSize overlap i)).take chunkSize)
      else none := by
    intro i
    have h := chunkTextGo_getElem? text chunkSize overlap hov 0 i
    simpa [chunkText, windowStart] using h
  refine ⟨hget, ?_, ?_, ?_, ?_⟩
  · intro p hp
    have hstep : 0 < chunkSize - overlap := by omega
    have hdm := Nat.div_add_mod p (chunkSize - overlap)
    have hmod := Nat.mod_lt p hstep
    have hcomm : (chunkSize - overlap) * (p / (chunkSize - overlap)) =
        p / (chunkSize - overlap) * (chunkSize - overlap) := Nat.mul_comm _ _
    refine ⟨?_, ?_, ?_⟩
    · rw [windowStart]; omega
    · rw [windowEnd, windowStart]; omega
    · rw [windowStart]; omega
  · intro w hw
    obtain ⟨i, hi⟩ := List.mem_iff_getElem?.mp hw
    rw [hget i] at hi
    by_cases hlt : windowStart chunkSize overlap i < text.length
    · rw [if_pos hlt] at hi
      cases hi
      exact le_trans (List.length_take_le chunkSize _) (le_refl _)
    · rw [if_neg hlt] at hi
      cases hi
  · intro i hfull
    rw [consecOverlap, windowEnd, windowStart, windowStart] at *
    have : (i + 1) * (chunkSize - overlap) = i * (chunkSize - overlap) + (chunkSize - overlap) := by
      ring
    omega
  · intro i
    rw [List.drop_take, List.drop_drop, List.take_take]
    have h1 : chunkSize - (chunkSize - overlap) = overlap := by omega
    have h2 : windowStart chunkSize overlap i + (chunkSize - overlap) =
        windowStart chunkSize overlap (i + 1) := by
      rw [windowStart, windowStart]; ring
    have h3 : min overlap chunkSize = overlap := by omega
    rw [h1, h2, h3]

/-- Witness for the amended C2, at a 10-character text with
`chunkSize = 4`, `overlap = 2`. -/
theorem chunkText_window_spec_witness :
    (0 < 2 ∧ 2 < 4) ∧
    (∀ w ∈ chunkText cexText 4 2, w.length ≤ 4) ∧
    (∀ i, windowStart 4 2 i + 4 ≤ cexText.length →
        consecOverlap cexText.length 4 2 i = 2) :=
  ⟨⟨by decide, by decide⟩,
   (chunkText_window_spec cexText 4 2 (by decide) (by decide)).2.2.1,
   (chunkText_window_spec cexText 4 2 (by decide) (by decide)).2.2.2.1⟩

/-! ## Embedding store (`embeddings.js`) -/

/-- An entry of `allChunks`: `{ text, source }` (the chunk's text and the
filename it came from), in document order. -/
structure SourceChunk where
  text : String
  source : String
deriving DecidableEq, Repr

/-- An entry of `embeddingsCache`: `{ text, embedding, source }`. -/
structure EmbeddedChunk where
  text : String
  embedding : List ℚ
  source : String
deriving DecidableEq, Repr

/-- The batching loop header
`for (let i = 0; i < allChunks.length; i += batchSize)` together with
`allChunks.slice(i, i + batchSize)`: the list of successive batches.
The JS loop does not terminate for `batchSize = 0` (the code always uses
100); the embedding returns `[]` in that out-of-scope case to stay total. -/
def sliceBatches (batchSize : Nat) (l : List α) : List (List α) :=
  if _h : l.length = 0 ∨ batchSize = 0 then []
  else l.take batchSize :: sliceBatches batchSize (l.drop batchSize)
termination_by l.length
decreasing_by
  simp only [List.length_drop]
  omega

/-- Concatenating the batches gives back the original list. -/
theorem sliceBatches_flatten (batchSize : Nat) (hbs : 0 < batchSize)
    (l : List α) : (sliceBatches batchSize l).flatten = l := by
  rw [sliceBatches]
  by_cases h : l.length = 0
  · rw [dif_pos (Or.inl h)]
    exact (List.eq_nil_of_length_eq_zero h).symm
  · rw [dif_neg (by omega)]
    rw [List.flatten_cons, sliceBatches_flatten batchSize hbs (l.drop batchSize)]
    exact List.take_append_drop batchSize l
termination_by l.length
decreasing_by
  simp only [List.length_drop]
  omega

/-- The loop body over all batches: `generateEmbeddings(batch.map(c => c.text))`
for each batch, all responses concatenated in order
(`embeddings.push(...batchEmbeddings)`).  The embedding-generation
capability is the parameter `embed`. -/
def batchedEmbeddings (embed : List String → List (List ℚ)) (batchSize : Nat)
    (allChunks : List SourceChunk) : List (List ℚ) :=
  ((sliceBatches batchSize allChunks).map
    (fun batch => embed (batch.map (fun c => c.text)))).flatten

/-- `allChunks.map((chunk, index) => ({ text, embedding: embeddings[index], source }))`.
The out-of-range access `embeddings[index]` (JS `undefined`) is modelled
with the default `[]`; it is never reached when the capability returns one
vector per input. -/
def combineChunks (allChunks : List SourceChunk) (embeddings : List (List ℚ)) :
    List EmbeddedChunk :=
  allChunks.mapIdx (fun index chunk => ⟨chunk.text, embeddings.getD index [], chunk.source⟩)

/-- Result of one `initializeEmbeddings()` call: the returned collection,
the `embeddingsCache` state afterwards, and how many
`generateEmbeddings` calls were issued. -/
structure InitResult where
  returned : List EmbeddedChunk
  cache : Option (List EmbeddedChunk)
  embedCalls : Nat
deriving DecidableEq, Repr

/-- `initializeEmbeddings()` (success path): if `embeddingsCache` is
populated, return it immediately (no embedding-generation calls);
otherwise chunk the corpus (here already given as `allChunks`), embed it in
batches — one `generateEmbeddings` call per batch — zip chunks with vectors
by positional index, store and return the result. -/
def initializeEmbeddings (embed : List String → List (List ℚ)) (batchSize : Nat)
    (allChunks : List SourceChunk) (cache : Option (List EmbeddedChunk)) :
    InitResult :=
  match cache with
  | some c => ⟨c, some c, 0⟩
  | none =>
      let result := combineChunks allChunks (batchedEmbeddings embed batchSize allChunks)
      ⟨result, some result, (sliceBatches batchSize allChunks).length⟩

theorem batchedEmbeddings_length (embed : List String → List (List ℚ))
    (batchSize : Nat) (hbs : 0 < batchSize) (allChunks : List SourceChunk)
    (hlen : ∀ ts, (embed ts).length = ts.length) :
    (batchedEmbeddings embed batchSize allChunks).length = allChunks.length := by
  rw [batchedEmbeddings, List.length_flatten]
  have hmap : ((sliceBatches batchSize allChunks).map
      (fun batch => embed (batch.map (fun c => c.text)))).map List.length =
      (sliceBatches batchSize allChunks).map List.length := by
    rw [List.map_map]
    apply List.map_congr_left
    intro b _
    simp [hlen]
  rw [hmap]
  have := congrArg List.length (sliceBatches_flatten batchSize hbs allChunks)
  rwa [List.length_flatten] at this

/-- C7: for every corpus (in document order), every positive batch size —
dividing the corpus evenly or not — and every embedding capability returning
one vector per input, the initialized store pairs, at every position `i`,
the `i`-th chunk's text and source with the `i`-th vector of the
concatenated batch responses. -/
theorem initializeEmbeddings_order (embed : List String → List (List ℚ))
    (batchSize : Nat) (allChunks : List SourceChunk)
    (hbs : 0 < batchSize) (hlen : ∀ ts, (embed ts).length = ts.length) :
    (batchedEmbeddings embed batchSize allChunks).length = allChunks.length ∧
    ∀ i (hi : i < allChunks.length),
      ((initializeEmbeddings embed batchSize allChunks none).returned)[i]? =
        some ⟨allChunks[i].text,
              (batchedEmbeddings embed batchSize allChunks).getD i [],
              allChunks[i].source⟩ := by
  refine ⟨batchedEmbeddings_length embed batchSize hbs allChunks hlen, ?_⟩
  intro i hi
  simp only [initializeEmbeddings, combineChunks, List.getElem?_mapIdx]
  rw [List.getElem?_eq_getElem hi]
  rfl

/-- A 3-chunk corpus. -/
def wChunks : List SourceChunk :=
  [⟨"alpha", "a.txt"⟩, ⟨"beta", "a.txt"⟩, ⟨"gamma", "b.txt"⟩]

/-- A concrete embedding capability returning one (length-based) vector per
input text. -/
def wEmbed (ts : List String) : List (List ℚ) :=
  ts.map (fun s => [(s.length : ℚ)])

/-- Witness for C7 at a 3-chunk corpus and batch size 2 (which does not
divide 3): position 2 pairs the third chunk with the third concatenated
vector. -/
theorem initializeEmbeddings_order_witness :
    (0 < 2 ∧ (∀ ts, (wEmbed ts).length = ts.length) ∧ 2 < wChunks.length) ∧
    (batchedEmbeddings wEmbed 2 wChunks).length = wChunks.length ∧
    ((initializeEmbeddings wEmbed 2 wChunks none).returned)[2]? =
      some ⟨wChunks[2].text, (batchedEmbeddings wEmbed 2 wChunks).getD 2 [],
            wChunks[2].source⟩ :=
  ⟨⟨by decide, fun ts => by simp [wEmbed], by decide⟩,
   (initializeEmbeddings_order wEmbed 2 wChunks (by decide)
      (fun ts => by simp [wEmbed])).1,
   (initializeEmbeddings_order wEmbed 2 wChunks (by decide)
      (fun ts => by simp [wEmbed])).2 2 (by decide)⟩

/-- C8: `initializeEmbeddings` is idempotent.  A call with a populated cache
returns the cached collection unchanged with zero embedding-generation
calls; consequently a second call, run on the cache state left by any first
call, returns the same collection the first call returned, issues no
embedding-generation calls, and leaves that single collection as the final
cache. -/
theorem initializeEmbeddings_idempotent (embed : List String → List (List ℚ))
    (batchSize : Nat) (allChunks : List SourceChunk)
    (cache : Option (List EmbeddedChunk)) (c : List EmbeddedChunk) :
    initializeEmbeddings embed batchSize allChunks (some c) = ⟨c, some c, 0⟩ ∧
    (initializeEmbeddings embed batchSize allChunks
        (initializeEmbeddings embed batchSize allChunks cache).cache) =
      ⟨(initializeEmbeddings embed batchSize allChunks cache).returned,
       (initializeEmbeddings embed batchSize allChunks cache).cache, 0⟩ := by
  refine ⟨rfl, ?_⟩
  cases cache with
  | some c' => rfl
  | none => rfl

/-- The batching loop with a fallible embedding-generation capability
(`generateEmbeddings` re-throws the API error): batches are awaited in
order, and the first failing batch aborts the whole loop with its error. -/
def collectBatches (embed : List String → Except ε (List (List ℚ))) :
    List (List SourceChunk) → Except ε (List (List ℚ))
  | [] => Except.ok []
  | b :: rest => do
    let e ← embed (b.map (fun c => c.text))
    let r ← collectBatches embed rest
    Except.ok (e ++ r)

/-- `initializeEmbeddings()` with a fallible embedding-generation
capability: a populated cache short-circuits; otherwise the batch loop runs,
and if any batch throws, the error propagates out of the function *before*
the `embeddingsCache = …` assignment, so the cache stays `none`. -/
def initializeEmbeddingsE (embed : List String → Except ε (List (List ℚ)))
    (batchSize : Nat) (allChunks : List SourceChunk)
    (cache : Option (List EmbeddedChunk)) :
    Except ε (List EmbeddedChunk) × Option (List EmbeddedChunk) :=
  match cache with
  | some c => (Except.ok c, some c)
  | none =>
      match collectBatches embed (sliceBatches batchSize allChunks) with
      | Except.error e => (Except.error e, none)
      | Except.ok embs =>
          let result := combineChunks allChunks embs
          (Except.ok result, some result)

/-- C9: if the embedding-generation capability fails on some batch, the
error propagates to the caller of `initializeEmbeddings`, the cache remains
unpopulated (no partial cache), and a subsequent call — with any capability —
behaves exactly like a fresh initialization from scratch. -/
theorem initializeEmbeddings_failure (embed : List String → Except ε (List (List ℚ)))
    (batchSize : Nat) (allChunks : List SourceChunk) (e : ε)
    (hfail : collectBatches embed (sliceBatches batchSize allChunks) = Except.error e) :
    initializeEmbeddingsE embed batchSize allChunks none = (Except.error e, none) ∧
    ∀ embed2 : List String → Except ε (List (List ℚ)),
      initializeEmbeddingsE embed2 batchSize allChunks
          (initializeEmbeddingsE embed batchSize allChunks none).2 =
        initializeEmbeddingsE embed2 batchSize allChunks none := by
  have h1 : initializeEmbeddingsE embed batchSize allChunks none =
      (Except.error e, none) := by
    simp only [initializeEmbeddingsE, hfail]
  exact ⟨h1, fun embed2 => by rw [h1]⟩

/-- A capability that always fails. -/
def wEmbedFail (_ : List String) : Except String (List (List ℚ)) :=
  Except.error "API error"

/-- A capability that always succeeds. -/
def wEmbedOk (ts : List String) : Except String (List (List ℚ)) :=
  Except.ok (wEmbed ts)

/-- Witness for C9: with an always-failing capability on the 3-chunk corpus,
initialization returns the error and leaves the cache empty, and a retry
with a working capability starts from scratch. -/
theorem initializeEmbeddings_failure_witness :
    collectBatches wEmbedFail (sliceBatches 2 wChunks) = Except.error "API error" ∧
    initializeEmbeddingsE wEmbedFail 2 wChunks none = (Except.error "API error", none) ∧
    initializeEmbeddingsE wEmbedOk 2 wChunks
        (initializeEmbeddingsE wEmbedFail 2 wChunks none).2 =
      initializeEmbeddingsE wEmbedOk 2 wChunks none := by
  have hfail : collectBatches wEmbedFail (sliceBatches 2 wChunks) =
      Except.error "API error" := by
    have hs : sliceBatches 2 wChunks =
        [[⟨"alpha", "a.txt"⟩, ⟨"beta", "a.txt"⟩], [⟨"gamma", "b.txt"⟩]] := by
      rw [sliceBatches, dif_neg (by simp [wChunks])]
      rw [sliceBatches, dif_neg (by simp [wChunks])]
      rw [sliceBatches, dif_pos (by simp [wChunks])]
      simp [wChunks]
    rw [hs]
    rfl
  exact ⟨hfail,
    (initializeEmbeddings_failure wEmbedFail 2 wChunks "API error" hfail).1,
    (initializeEmbeddings_failure wEmbedFail 2 wChunks "API error" hfail).2 wEmbedOk⟩

/-! ## Retriever (`src/lib/retriever.js`) -/

/-- The single `for` loop of `cosineSimilarity`, accumulating
`(dotProduct, normA, normB)`.  The JS loop runs over `a.length`, indexing
`b` at the same positions; the retrieval pipeline only compares
equal-length vectors, modelled by walking both lists together. -/
def cosineLoop : List ℚ → List ℚ → ℚ × ℚ × ℚ
  | x :: xs, y :: ys =>
      let r := cosineLoop xs ys
      (x * y + r.1, x * x + r.2.1, y * y + r.2.2)
  | _, _ => (0, 0, 0)

/-- `cosineSimilarity(a, b)` returns
`dotProduct / (Math.sqrt(normA) * Math.sqrt(normB))` with NO guard on the
denominator.  Over `ℚ` the square roots cannot be formed, so the embedding
returns the accumulated `(dotProduct, normA, normB)` wrapped in `Option`:
`none` models the JS result when the denominator `√normA * √normB` is zero
— exactly when `normA = 0` or `normB = 0` — where the unguarded division
yields `NaN`; `some r` represents the real number
`r.dot / (√r.normA * √r.normB)` otherwise.  The JS source contains no
branch producing a fallback value in the zero case. -/
def cosineSimilarity (a b : List ℚ) : Option (ℚ × ℚ × ℚ) :=
  let r := cosineLoop a b
  if r.2.1 = 0 ∨ r.2.2 = 0 then none else some r

/-- C6 (refuted; the code lacks the guard the spec mandates): a
zero-magnitude vector always reaches the unguarded division by zero —
`normA = 0`, so the denominator `√normA * √normB` is zero — and no fallback
similarity value is produced for any second argument. -/
theorem cosineSimilarity_zero_vector_no_fallback :
    (∀ b : List ℚ, (cosineLoop [0, 0] b).2.1 = 0 ∧ cosineSimilarity [0, 0] b = none) ∧
    cosineSimilarity [0, 0] [1, 2] = none := by
  have hloop : ∀ b : List ℚ, (cosineLoop [0, 0] b).2.1 = 0 := by
    intro b
    match b with
    | [] => rfl
    | [y] => simp [cosineLoop]
    | y :: z :: zs => simp [cosineLoop]
  have hsim : ∀ b : List ℚ, cosineSimilarity [0, 0] b = none := by
    intro b
    simp only [cosineSimilarity]
    rw [if_pos (Or.inl (hloop b))]
  exact ⟨fun b => ⟨hloop b, hsim b⟩, hsim [1, 2]⟩

/-- An entry of the `similarities` array:
`{ index, similarity, text, source }`. -/
structure ScoredChunk where
  index : Nat
  similarity : ℚ
  text : String
  source : String
deriving DecidableEq, Repr

/-- The comparator `(a, b) => b.similarity - a.similarity`: `a` may stay
before `b` exactly when the comparator is ≤ 0, i.e.
`b.similarity ≤ a.similarity`.  JS `Array.prototype.sort` is a stable sort,
modelled by the stable `List.mergeSort` with this relation. -/
def simDescLE (a b : ScoredChunk) : Bool := b.similarity ≤ a.similarity

/-- The separator of `.join('\n\n---\n\n')`. -/
def CONTEXT_SEPARATOR : String := "\n\n---\n\n"

/-- The template `[Source: ${result.source}]\n${result.text}`. -/
def formatChunk (r : ScoredChunk) : String :=
  "[Source: " ++ r.source ++ "]\n" ++ r.text

/-- `embeddings.map((item, index) => ({ index, similarity:
cosineSimilarity(queryEmbedding, item.embedding), text, source }))`.
The similarity score is abstracted as a function `sim` of the query vector
and the stored vector: the code's scores are IEEE-754 doubles involving
square roots, and every retrieval property proved below holds for an
arbitrary score function, hence in particular for the code's. -/
def retrieveSimilarities (sim : List ℚ → List ℚ → ℚ) (queryEmbedding : List ℚ)
    (store : List EmbeddedChunk) : List ScoredChunk :=
  store.mapIdx (fun index item =>
    ⟨index, sim queryEmbedding item.embedding, item.text, item.source⟩)

/-- `similarities.sort((a, b) => b.similarity - a.similarity)` followed by
`slice(0, topK)`. -/
def retrieveTop (sim : List ℚ → List ℚ → ℚ) (queryEmbedding : List ℚ)
    (store : List EmbeddedChunk) (topK : Nat) : List ScoredChunk :=
  ((retrieveSimilarities sim queryEmbedding store).mergeSort simDescLE).take topK

/-- `retrieveContext`: map each selected result through the source-prefix
template and join with the fixed separator. -/
def retrieveContext (sim : List ℚ → List ℚ → ℚ) (queryEmbedding : List ℚ)
    (store : List EmbeddedChunk) (topK : Nat) : String :=
  String.intercalate CONTEXT_SEPARATOR
    ((retrieveTop sim queryEmbedding store topK).map formatChunk)

theorem simDescLE_trans : ∀ a b c : ScoredChunk,
    simDescLE a b → simDescLE b c → simDescLE a c := by
  intro a b c hab hbc
  simp only [simDescLE, decide_eq_true_eq] at *
  exact le_trans hbc hab

theorem simDescLE_total : ∀ a b : ScoredChunk, simDescLE a b || simDescLE b a := by
  intro a b
  simp only [simDescLE, Bool.or_eq_true, decide_eq_true_eq]
  exact le_total _ _

/-- Two positions of a list, in order, form a two-element sublist. -/
theorem pair_sublist_of_getElem : ∀ (l : List α) (i j : Nat) (hi : i < l.length)
    (hj : j < l.length), i < j → List.Sublist [l[i], l[j]] l := by
  intro l
  induction l with
  | nil => intro i j hi hj hij; simp at hj
  | cons c t ih =>
    intro i j hi hj hij
    cases i with
    | zero =>
      cases j with
      | zero => omega
      | succ j' =>
        rw [List.getElem_cons_zero, List.getElem_cons_succ]
        refine List.Sublist.cons₂ c ?_
        rw [List.singleton_sublist]
        exact List.getElem_mem _
    | succ i' =>
      cases j with
      | zero => omega
      | succ j' =>
        rw [List.getElem_cons_succ, List.getElem_cons_succ]
        exact List.Sublist.cons c (ih i' j' (by simpa using hi) (by simpa using hj) (by omega))

/-- Conversely, a two-element sublist occupies two positions in order. -/
theorem exists_getElem_of_pair_sublist {a b : α} : ∀ {l : List α},
    List.Sublist [a, b] l → ∃ (i j : Nat) (hi : i < l.length) (hj : j < l.length),
      i < j ∧ l[i] = a ∧ l[j] = b := by
  intro l
  induction l with
  | nil => intro h; cases h
  | cons c t ih =>
    intro h
    cases h with
    | cons _ h' =>
      obtain ⟨i, j, hi, hj, hij, ha, hb⟩ := ih h'
      exact ⟨i + 1, j + 1, by simpa using hi, by simpa using hj, by omega,
        by simpa using ha, by simpa using hb⟩
    | cons₂ _ h' =>
      have hb : b ∈ t := List.singleton_sublist.mp h'
      obtain ⟨j, hj, hbj⟩ := List.mem_iff_getElem.mp hb
      exact ⟨0, j + 1, by simp, by simpa using hj, by omega,
        rfl, by simpa using hbj⟩

/-- In a duplicate-free list, positions with equal elements coincide. -/
theorem nodup_getElem_inj {l : List α} (h : l.Nodup) {i j : Nat}
    (hi : i < l.length) (hj : j < l.length) (he : l[i] = l[j]) : i = j := by
  have hinj := List.nodup_iff_injective_get.mp h
  have h2 : (⟨i, hi⟩ : Fin l.length) = ⟨j, hj⟩ := by
    apply hinj
    simpa [List.get_eq_getElem] using he
  exact congrArg Fin.val h2

/-- The `index` field of the `similarities` entry at position `k` is `k`. -/
theorem retrieveSimilarities_index (sim : List ℚ → List ℚ → ℚ)
    (queryEmbedding : List ℚ) (store : List EmbeddedChunk) (k : Nat)
    (hk : k < (retrieveSimilarities sim queryEmbedding store).length) :
    ((retrieveSimilarities sim queryEmbedding store)[k]).index = k := by
  simp [retrieveSimilarities]

/-- The `similarities` array is duplicate-free: its entries carry distinct
indices. -/
theorem retrieveSimilarities_nodup (sim : List ℚ → List ℚ → ℚ)
    (queryEmbedding : List ℚ) (store : List EmbeddedChunk) :
    (retrieveSimilarities sim queryEmbedding store).Nodup := by
  rw [List.nodup_iff_injective_get]
  intro a b hab
  have ha := retrieveSimilarities_index sim queryEmbedding store a.val a.isLt
  have hb := retrieveSimilarities_index sim queryEmbedding store b.val b.isLt
  apply Fin.ext
  rw [← ha, ← hb]
  simp only [List.get_eq_getElem] at hab
  rw [hab]

/-- Every element of the `similarities` array sits at the position its
`index` field names. -/
theorem mem_retrieveSimilarities_getElem (sim : List ℚ → List ℚ → ℚ)
    (queryEmbedding : List ℚ) (store : List EmbeddedChunk) (x : ScoredChunk)
    (hx : x ∈ retrieveSimilarities sim queryEmbedding store) :
    ∃ h : x.index < (retrieveSimilarities sim queryEmbedding store).length,
      (retrieveSimilarities sim queryEmbedding store)[x.index] = x := by
  obtain ⟨k, hk, he⟩ := List.mem_iff_getElem.mp hx
  have hidx := retrieveSimilarities_index sim queryEmbedding store k hk
  have hxk : x.index = k := by rw [← he, hidx]
  rw [hxk]
  exact ⟨hk, he⟩

/-- Stability of the sort, for any list whose entry at position `k` carries
`index = k`: in its stable `mergeSort` by descending similarity, entries
with equal similarity appear in increasing `index` order. -/
theorem mergeSort_simDescLE_tie_index (scored : List ScoredChunk)
    (hidx : ∀ k (hk : k < scored.length), (scored[k]).index = k) :
    (scored.mergeSort simDescLE).Pairwise
      (fun x y => x.similarity = y.similarity → x.index < y.index) := by
  have hnodupS : scored.Nodup := by
    rw [List.nodup_iff_injective_get]
    intro a b hab
    apply Fin.ext
    rw [← hidx a.val a.isLt, ← hidx b.val b.isLt]
    simp only [List.get_eq_getElem] at hab
    rw [hab]
  have hmem : ∀ x ∈ scored, ∃ h : x.index < scored.length, scored[x.index] = x := by
    intro x hx
    obtain ⟨k, hk, he⟩ := List.mem_iff_getElem.mp hx
    have hxk : x.index = k := by rw [← he, hidx k hk]
    rw [hxk]
    exact ⟨hk, he⟩
  have hnodup : (scored.mergeSort simDescLE).Nodup :=
    ((List.mergeSort_perm scored simDescLE).nodup_iff).mpr hnodupS
  rw [List.pairwise_iff_getElem]
  intro i j hi hj hij heq
  obtain ⟨hxl, hxe⟩ := hmem ((scored.mergeSort simDescLE)[i])
    (List.mem_mergeSort.mp (List.getElem_mem hi))
  obtain ⟨hyl, hye⟩ := hmem ((scored.mergeSort simDescLE)[j])
    (List.mem_mergeSort.mp (List.getElem_mem hj))
  rcases Nat.lt_trichotomy ((scored.mergeSort simDescLE)[i]).index
      ((scored.mergeSort simDescLE)[j]).index with hlt | heqidx | hgt
  · exact hlt
  · exfalso
    have h1 : scored[((scored.mergeSort simDescLE)[j]).index]? =
        some ((scored.mergeSort simDescLE)[j]) := by
      rw [List.getElem?_eq_getElem hyl, hye]
    have h2 : scored[((scored.mergeSort simDescLE)[i]).index]? =
        some ((scored.mergeSort simDescLE)[i]) := by
      rw [List.getElem?_eq_getElem hxl, hxe]
    rw [← heqidx] at h1
    have hsome : some ((scored.mergeSort simDescLE)[i]) =
        some ((scored.mergeSort simDescLE)[j]) := by
      rw [← h1, ← h2]
    have heq2 := Option.some.inj hsome
    have := nodup_getElem_inj hnodup hi hj heq2
    omega
  · exfalso
    have hsub : List.Sublist [scored[((scored.mergeSort simDescLE)[j]).index],
        scored[((scored.mergeSort simDescLE)[i]).index]] scored :=
      pair_sublist_of_getElem scored _ _ hyl hxl hgt
    rw [hxe, hye] at hsub
    have hle : simDescLE ((scored.mergeSort simDescLE)[j])
        ((scored.mergeSort simDescLE)[i]) := by
      simp only [simDescLE, heq, decide_eq_true_eq, le_refl]
    have hsorted2 : List.Sublist [(scored.mergeSort simDescLE)[j],
        (scored.mergeSort simDescLE)[i]] (scored.mergeSort simDescLE) :=
      List.pair_sublist_mergeSort simDescLE_trans simDescLE_total hle hsub
    obtain ⟨p, q, hp, hq, hpq, hpj, hqi⟩ := exists_getElem_of_pair_sublist hsorted2
    have hpj2 : p = j := nodup_getElem_inj hnodup hp hj hpj
    have hqi2 : q = i := nodup_getElem_inj hnodup hq hi hqi
    omega

/-- Stability of the retrieval sort: in the sorted `similarities` array,
entries with equal similarity appear in increasing `index` (original store)
order. -/
theorem retrieveSorted_tie_index (sim : List ℚ → List ℚ → ℚ)
    (queryEmbedding : List ℚ) (store : List EmbeddedChunk) :
    ((retrieveSimilarities sim queryEmbedding store).mergeSort simDescLE).Pairwise
      (fun x y => x.similarity = y.similarity → x.index < y.index) :=
  mergeSort_simDescLE_tie_index (retrieveSimilarities sim queryEmbedding store)
    (retrieveSimilarities_index sim queryEmbedding store)

/-- C4: for every score function, query vector, store contents and `topK`:
the sort is a permutation of the scored store entries; the selected passages
are ordered by descending similarity with ties broken by the original store
order (stable sort); every selected entry scores at least as high as every
unselected one; exactly `min(topK, store size)` entries are selected and
joined, each prefixed by its source identifier via the fixed template, with
the fixed separator between entries; and requesting `topK = 3` from a store
of at least 3 items yields exactly 3 passages. -/
theorem retrieveContext_spec (sim : List ℚ → List ℚ → ℚ) (queryEmbedding : List ℚ)
    (store : List EmbeddedChunk) (topK : Nat) :
    ((retrieveSimilarities sim queryEmbedding store).mergeSort simDescLE).Perm
        (retrieveSimilarities sim queryEmbedding store) ∧
    (retrieveTop sim queryEmbedding store topK).Pairwise
        (fun x y => y.similarity ≤ x.similarity) ∧
    (retrieveTop sim queryEmbedding store topK).Pairwise
        (fun x y => x.similarity = y.similarity → x.index < y.index) ∧
    (∀ x ∈ retrieveTop sim queryEmbedding store topK,
      ∀ y ∈ ((retrieveSimilarities sim queryEmbedding store).mergeSort
          simDescLE).drop topK,
        y.similarity ≤ x.similarity) ∧
    (retrieveTop sim queryEmbedding store topK).length = min topK store.length ∧
    (3 ≤ store.length → (retrieveTop sim queryEmbedding store 3).length = 3) ∧
    retrieveContext sim queryEmbedding store topK =
      String.intercalate CONTEXT_SEPARATOR
        ((retrieveTop sim queryEmbedding store topK).map formatChunk) := by
  have hdesc : ((retrieveSimilarities sim queryEmbedding store).mergeSort
      simDescLE).Pairwise (fun x y => y.similarity ≤ x.similarity) := by
    have h := List.sorted_mergeSort simDescLE_trans simDescLE_total
      (retrieveSimilarities sim queryEmbedding store)
    exact h.imp (fun hb => by simpa [simDescLE] using hb)
  have hlen : ∀ k : Nat, (retrieveTop sim queryEmbedding store k).length =
      min k store.length := by
    intro k
    rw [retrieveTop, List.length_take, List.length_mergeSort, retrieveSimilarities,
      List.length_mapIdx]
  refine ⟨List.mergeSort_perm _ _, ?_, ?_, ?_, hlen topK, ?_, rfl⟩
  · exact List.Pairwise.sublist (List.take_sublist _ _) hdesc
  · exact List.Pairwise.sublist (List.take_sublist _ _)
      (retrieveSorted_tie_index sim queryEmbedding store)
  · have hsplit : ((retrieveSimilarities sim queryEmbedding store).mergeSort
        simDescLE).take topK ++ ((retrieveSimilarities sim queryEmbedding
        store).mergeSort simDescLE).drop topK =
        (retrieveSimilarities sim queryEmbedding store).mergeSort simDescLE :=
      List.take_append_drop _ _
    have h := List.pairwise_append.mp (by rw [hsplit]; exact hdesc)
    exact h.2.2
  · intro h3
    rw [hlen 3]
    omega

/-- A concrete score function (a dot product). -/
def wSim (q v : List ℚ) : ℚ := (List.zipWith (fun x y => x * y) q v).sum

/-- A concrete 3-item store. -/
def wStore : List EmbeddedChunk :=
  [⟨"one", [1], "a.txt"⟩, ⟨"two", [2], "a.txt"⟩, ⟨"three", [3], "b.txt"⟩]

/-- Witness for C4: requesting `topK = 3` from a 3-item store yields exactly
3 passages. -/
theorem retrieveContext_spec_witness :
    3 ≤ wStore.length ∧ (retrieveTop wSim [1] wStore 3).length = 3 :=
  ⟨by decide, (retrieveContext_spec wSim [1] wStore 3).2.2.2.2.2.1 (by decide)⟩

end Chatbot
